import Mathlib

/-!
Verification of the `any-event` event bus (`src/src/event-bus.ts` together with
its validation helpers, whose implementation is the file shipped as
`src/unnamed/part_002`).

The TypeScript sources are shallowly embedded:
* JS `Map` objects become insertion-ordered association lists
  (`List (κ × β)`); `mapSet` on a present key updates in place (keeping the
  position, as a JS `Map` does) and appends otherwise.
* JS strings become `List Char`.
* Event identifiers (`EventIdentifier`, which may be any JS value) become
  `Ident`: either a textual identifier or an opaque non-string value
  (functions — which can also serve as listeners — or other values, compared
  by identity).
* Listener functions become `Fn`: an identity tag plus a flag saying whether
  calling the function throws.  Return values of listeners are not modelled
  (they never influence control flow of the bus).
* JS numbers used as capacities become `Cap`: `Infinity` or an integer.
* Functions that may `throw` return `Except Unit` results / explicit
  outcome flags; mutation of `this` becomes explicit state passing on
  `BusState`.
-/

namespace AnyEvent

/-! ### Insertion-ordered association lists (the JS `Map` model) -/

/-- Model of `Map.prototype.get`. -/
def mapGet {κ β : Type} [DecidableEq κ] : List (κ × β) → κ → Option β
  | [], _ => none
  | (k', v) :: r, k => if k' = k then some v else mapGet r k

/-- Model of `Map.prototype.set`: update in place when the key is present
(JS `Map` keeps the original insertion position), append otherwise. -/
def mapSet {κ β : Type} [DecidableEq κ] : List (κ × β) → κ → β → List (κ × β)
  | [], k, v => [(k, v)]
  | (k', v') :: r, k, v => if k' = k then (k, v) :: r else (k', v') :: mapSet r k v

/-- Model of `Map.prototype.delete` (keys are unique in a JS `Map`, so
removing the first occurrence is exact). -/
def mapDelete {κ β : Type} [DecidableEq κ] : List (κ × β) → κ → List (κ × β)
  | [], _ => []
  | (k', v') :: r, k => if k' = k then r else (k', v') :: mapDelete r k

/-! ### Character-list helpers for JS string operations -/

/-- `startsWithL s p` models `s.startsWith(p)`. -/
def startsWithL : List Char → List Char → Bool
  | _, [] => true
  | [], _ :: _ => false
  | c :: s, d :: p => c == d && startsWithL s p

/-- `endsWithL s p` models `s.endsWith(p)`. -/
def endsWithL (s p : List Char) : Bool :=
  startsWithL s.reverse p.reverse

/-- `hasChar c s` models `s.includes(c)` for a single character `c`. -/
def hasChar (c : Char) : List Char → Bool
  | [] => false
  | d :: r => d == c || hasChar c r

/-- Models `s.includes('.*')` (a literal dot immediately followed by a
literal star somewhere in `s`). -/
def hasDotStar : List Char → Bool
  | '.' :: '*' :: _ => true
  | _ :: r => hasDotStar r
  | [] => false

/-- Models `s.startsWith('.')`. -/
def startsWithDot (s : List Char) : Bool :=
  match s with
  | [] => false
  | c :: _ => c == '.'

/-- Models `s.endsWith('.')`. -/
def endsWithDot (s : List Char) : Bool :=
  match s.getLast? with
  | some c => c == '.'
  | none => false

/-- Models `s.slice(0, -n)` for `n ≥ 0` (drop the last `n` characters;
yields the empty string when `n` exceeds the length, as in JS). -/
def dropLastN (n : Nat) (s : List Char) : List Char :=
  s.take (s.length - n)

/-! ### Core data model -/

/-- A JS function value: an identity tag plus whether calling it throws.
Listener return values are irrelevant to the bus's control flow and are not
modelled. -/
structure Fn where
  tag : Nat
  throws : Bool
deriving DecidableEq, Repr

/-- A non-string JS value usable as an event identifier: a function (which
can double as a listener, cf. the single-argument overloads of `on`/`once`)
or any other value, identified by a tag (JS compares them by identity). -/
inductive JSVal where
  | fn : Fn → JSVal
  | other : Nat → JSVal
deriving DecidableEq, Repr

/-- An `EventIdentifier`: a string, or any non-string value. -/
inductive Ident where
  | str : List Char → Ident
  | val : JSVal → Ident
deriving DecidableEq, Repr

/-- A capacity value: `Infinity` (when `on` is called without a capacity) or
an integer.  `Cap.dec` models the `--cfg.capacity` decrement
(`Infinity - 1 = Infinity` in JS) and `Cap.le0` models `cfg.capacity <= 0`
(`Infinity <= 0` is `false`). -/
inductive Cap where
  | inf : Cap
  | fin : Int → Cap
deriving DecidableEq, Repr

/-- Models `--cfg.capacity` (the value after the pre-decrement). -/
def Cap.dec : Cap → Cap
  | .inf => .inf
  | .fin n => .fin (n - 1)

/-- Models the test `cfg.capacity <= 0`. -/
def Cap.le0 : Cap → Bool
  | .inf => false
  | .fin n => n ≤ 0

/-- One registered listener entry (`EventConfig` in `global.d.ts`). -/
structure EventConfig where
  listener : Fn
  capacity : Cap
deriving DecidableEq, Repr

/-- A bucket: the `Map<Id, EventConfig>` stored under one registered
identifier. -/
abbrev Bucket := List (Nat × EventConfig)

/-- The private state of an `EventBus` instance: `stringEvents` (string
keys), `events` (all non-string keys), `idMap` (listener id to owning
identifier) and the id counter. -/
structure BusState where
  stringEvents : List (List Char × Bucket)
  events : List (JSVal × Bucket)
  idMap : List (Nat × Ident)
  nextId : Nat
deriving DecidableEq, Repr

/-- `new EventBus()`. -/
def freshBus : BusState :=
  { stringEvents := [], events := [], idMap := [], nextId := 0 }

/-- Models `EventBus.getEvent` (dispatch on `typeof identifier === 'string'`). -/
def getEvent (st : BusState) : Ident → Option Bucket
  | .str s => mapGet st.stringEvents s
  | .val v => mapGet st.events v

/-- Models `EventBus.setEvent`. -/
def setEvent (st : BusState) (x : Ident) (b : Bucket) : BusState :=
  match x with
  | .str s => { st with stringEvents := mapSet st.stringEvents s b }
  | .val v => { st with events := mapSet st.events v b }

/-- Models `EventBus.deleteEvent`. -/
def deleteEvent (st : BusState) : Ident → BusState
  | .str s => { st with stringEvents := mapDelete st.stringEvents s }
  | .val v => { st with events := mapDelete st.events v }

/-! ### Validation (`common.ts`, shipped as `src/unnamed/part_002`) -/

/-- Models `expectEmitEventName`: `true` means the function returns without
throwing.  Non-strings always pass; a string passes iff it does not start or
end with `'.'` and contains no `'*'`. -/
def expectEmitOk : Ident → Bool
  | .val _ => true
  | .str s => !startsWithDot s && !endsWithDot s && !hasChar '*' s

/-- Models the regex test `/[\*]{3,}/.test(s)`: some run of three
consecutive stars occurs in `s` (at each position, either three stars
start right here, or the run lies further right). -/
def hasRun3 : List Char → Bool
  | [] => false
  | c :: r => (c == '*' && startsWithL r ['*', '*']) || hasRun3 r

/-- Models `s.replace(/[\*]{2,}/g, '*')`: every maximal run of two or more
stars collapses to a single star.  The boolean argument tracks whether we
are inside a star run whose first star has already been emitted. -/
def collapseGo : Bool → List Char → List Char
  | _, [] => []
  | inStar, '*' :: rest => (if inStar then [] else ['*']) ++ collapseGo true rest
  | _, c :: rest => c :: collapseGo false rest

/-- `s.replace(/[\*]{2,}/g, '*')` (runs of length one are unchanged, which
agrees with emitting the first star of every run and dropping the rest). -/
def collapseStars (s : List Char) : List Char :=
  collapseGo false s

/-- Splits a string at its first `'*'`: returns `(before, after)` with
`'*' ∉ before`, or `none` when there is no star (models `s.indexOf('*')`). -/
def splitFirstStar : List Char → Option (List Char × List Char)
  | [] => none
  | c :: rest =>
    if c = '*' then some ([], rest)
    else
      match splitFirstStar rest with
      | none => none
      | some (b, a) => some (c :: b, a)

/-- Models the check `name[index + 1] === '.'` (where reading one past the
end yields `undefined`, which is not `'.'`). -/
def headIsDot : List Char → Bool
  | [] => false
  | c :: _ => c == '.'

/-- Models the two adjacency checks of `expectEventName` performed on the
normalized name: at the first star (if any), reject the bare `"*"`, require
a following `'.'` when the star is the first character, and otherwise
require a `'.'` immediately before or after the star (`name[index - 1]` /
`name[index + 1]`; an out-of-range read is `undefined`, never `'.'`). -/
def starAdjOk (name : List Char) : Bool :=
  match splitFirstStar name with
  | none => true
  | some ([], []) => false
  | some ([], c :: _) => c == '.'
  | some (b, a) => endsWithDot b || headIsDot a

/-- Models `expectEventName` (the registration-time validator): `true` means
no throw.  Non-strings always pass. -/
def expectEventNameOk : Ident → Bool
  | .val _ => true
  | .str s =>
    !startsWithDot s && !endsWithDot s && !hasRun3 s &&
      starAdjOk (collapseStars s)

/-- Models `Number.isSafeInteger(c) && c > 0` for an integral capacity
argument. -/
def isSafeIntegerPos (c : Int) : Bool :=
  decide (c.natAbs ≤ 2 ^ 53 - 1) && decide (0 < c)

/-! ### The mixed-pattern regex branch of `matchEvents`

For a registered pattern that contains `'*'`, does not end with `'.**'` or
`'.*'`, but contains the substring `'.*'`, `matchEvents` builds
`new RegExp('^' + pattern.replace(/\.\*\*/g, '(?:\..*)?')
                         .replace(/\.\*/g, '\.[^.]+') + '$')`
and tests the identifier against it.  We model the two global string
replacements literally (left-to-right, non-overlapping, no re-scanning of
the just-inserted text within one `replace` call — note that the *second*
call does re-scan text inserted by the first), then parse the produced
character string as a regular expression and run a backtracking matcher.
The parser understands exactly the constructs such produced strings can
contain when the pattern is built from ordinary identifier characters:
literals, `\c` escapes, `.`, the class `[^.]`, non-capturing groups
`(?:…)`, and the quantifiers `*`, `+`, `?` on the preceding atom.  A string
the parser rejects corresponds to `new RegExp` throwing a `SyntaxError`
(e.g. a quantifier with nothing to repeat), which the model propagates as
an exception (`none`). -/

/-- Models `pattern.replace(/\.\*\*/g, '(?:\\..*)?')`. -/
def replDSS : List Char → List Char
  | '.' :: '*' :: '*' :: rest => "(?:\\..*)?".toList ++ replDSS rest
  | c :: rest => c :: replDSS rest
  | [] => []

/-- Models `s.replace(/\.\*/g, '\\.[^.]+')`. -/
def replDS : List Char → List Char
  | '.' :: '*' :: rest => "\\.[^.]+".toList ++ replDS rest
  | c :: rest => c :: replDS rest
  | [] => []

/-- An atom of the produced regular expression that consumes exactly one
character. -/
inductive Atom1 where
  | lit : Char → Atom1
  | anyC : Atom1
  | nonDot : Atom1
deriving DecidableEq, Repr

/-- Does atom `a` match character `c`? -/
def matchA : Atom1 → Char → Bool
  | .lit d, c => d == c
  | .anyC, _ => true
  | .nonDot, c => c != '.'

/-- An element of the produced regular expression. -/
inductive RE where
  | atom : Atom1 → RE
  | group : List RE → RE
  | star : Atom1 → RE
  | plus : Atom1 → RE
  | quesOpt : RE → RE
deriving Repr

mutual

/-- Size measure used for termination of the matcher. -/
def reSize : RE → Nat
  | .atom _ => 1
  | .group g => 1 + reSizeL g
  | .star _ => 1
  | .plus _ => 1
  | .quesOpt r => 1 + reSize r

def reSizeL : List RE → Nat
  | [] => 0
  | r :: rs => reSize r + reSizeL rs

end

theorem reSizeL_append (a b : List RE) : reSizeL (a ++ b) = reSizeL a + reSizeL b := by
  induction a with
  | nil => simp [reSizeL]
  | cons r rs ih => simp [reSizeL, ih]; omega

/-- Whole-string backtracking matcher for the produced regular expression
(the source anchors the regex with `^…$`).  The boolean result agrees with
JS matching; greedy-versus-lazy order is irrelevant for a boolean answer. -/
def matchSeq : List RE → List Char → Bool
  | [], s => s.isEmpty
  | .atom _ :: _, [] => false
  | .atom a :: rs, c :: s => matchA a c && matchSeq rs s
  | .group g :: rs, s => matchSeq (g ++ rs) s
  | .star _ :: rs, [] => matchSeq rs []
  | .star a :: rs, c :: s =>
    matchSeq rs (c :: s) || (matchA a c && matchSeq (.star a :: rs) s)
  | .plus _ :: _, [] => false
  | .plus a :: rs, c :: s => matchA a c && matchSeq (.star a :: rs) s
  | .quesOpt r :: rs, s => matchSeq rs s || matchSeq (r :: rs) s
termination_by rs s => (s.length, reSizeL rs)
decreasing_by
  all_goals simp_wf
  all_goals simp [reSize, reSizeL, reSizeL_append]
  all_goals omega

/-- One step of the recursive-descent parser: given the last parsed element
(if any, and still quantifiable) and a quantifier kind, attach the
quantifier.  Returns `none` on "nothing to repeat" (a JS `SyntaxError`). -/
def attachQuant (acc : List RE) (q : Char) : Option (List RE) :=
  match acc.getLast?, q with
  | some (.atom a), '*' => some (acc.dropLast ++ [.star a])
  | some (.atom a), '+' => some (acc.dropLast ++ [.plus a])
  | some (.atom a), '?' => some (acc.dropLast ++ [.quesOpt (.atom a)])
  | some (.group g), '?' => some (acc.dropLast ++ [.quesOpt (.group g)])
  -- a `?` directly after a quantifier is the lazy-match marker, accepted by
  -- JS and irrelevant for a boolean match:
  | some (.star a), '?' => some (acc.dropLast ++ [.star a])
  | some (.plus a), '?' => some (acc.dropLast ++ [.plus a])
  | some (.quesOpt r), '?' => some (acc.dropLast ++ [.quesOpt r])
  | _, _ => none

/-- Fuel-driven recursive-descent parser for the produced regex string.
`depth`-tracking for groups: `parseGo` returns the parsed elements together
with the unconsumed remainder when it stops at a `')'` (for the caller that
opened the group).  The fuel is only a structural-termination device; every
step consumes at least one character, so `fuel = length + 1` (as supplied
by `parseRegex`) never runs out on the way to an answer. -/
def parseGo : Nat → List RE → List Char → Option (List RE × List Char)
  | 0, _, _ => none
  | _ + 1, acc, [] => some (acc, [])
  | _ + 1, acc, ')' :: rest => some (acc, ')' :: rest)
  | fuel + 1, acc, '\\' :: c :: rest => parseGo fuel (acc ++ [.atom (.lit c)]) rest
  | _ + 1, _, ['\\'] => none
  | fuel + 1, acc, '[' :: '^' :: '.' :: ']' :: rest =>
    parseGo fuel (acc ++ [.atom .nonDot]) rest
  | fuel + 1, acc, '(' :: '?' :: ':' :: rest =>
    match parseGo fuel [] rest with
    | none => none
    | some (g, rem) =>
      match rem with
      | ')' :: rem' => parseGo fuel (acc ++ [.group g]) rem'
      | _ => none
  | fuel + 1, acc, '.' :: rest => parseGo fuel (acc ++ [.atom .anyC]) rest
  | fuel + 1, acc, '*' :: rest =>
    match attachQuant acc '*' with
    | none => none
    | some acc' => parseGo fuel acc' rest
  | fuel + 1, acc, '+' :: rest =>
    match attachQuant acc '+' with
    | none => none
    | some acc' => parseGo fuel acc' rest
  | fuel + 1, acc, '?' :: rest =>
    match attachQuant acc '?' with
    | none => none
    | some acc' => parseGo fuel acc' rest
  | fuel + 1, acc, c :: rest => parseGo fuel (acc ++ [.atom (.lit c)]) rest

/-- Parse a full regex string; `none` models `new RegExp` throwing a
`SyntaxError`. -/
def parseRegex (s : List Char) : Option (List RE) :=
  match parseGo (2 * s.length + 2) [] s with
  | some (res, []) => some res
  | _ => none

/-! ### `matchEvents` (`event-bus.ts` lines 69–115) -/

/-- The wildcard branch cascade of `matchEvents` (lines 90–106) for one
registered pattern against one concrete identifier.  `some b` is the value
of `isMatch`; `none` models the `SyntaxError` thrown by `new RegExp` in the
mixed branch. -/
def wildcardBranches (pattern identifier : List Char) : Option Bool :=
  if endsWithL pattern ".**".toList then
    -- multi-level wildcard: remove '.**', then
    -- `identifier === prefix || identifier.startsWith(prefix + '.')`
    let pre := dropLastN 3 pattern
    some (identifier == pre || startsWithL identifier (pre ++ ['.']))
  else if endsWithL pattern ".*".toList then
    -- single-level wildcard: remove the final '*' (keeping the dot)
    let pre := dropLastN 1 pattern
    if startsWithL identifier pre then
      let suffix := identifier.drop pre.length
      some (!suffix.isEmpty && !hasChar '.' suffix)
    else some false
  else if hasDotStar pattern then
    -- mixed pattern: compile to a regex and test
    match parseRegex (replDS (replDSS pattern)) with
    | some res => some (matchSeq res identifier)
    | none => none
  else some false

/-- The full per-pattern decision of the wildcard loop: line 87's
`pattern.includes('*')` guard around `wildcardBranches` (a pattern without
a star is never treated as a wildcard). -/
def patMatch (pattern identifier : List Char) : Option Bool :=
  if hasChar '*' pattern then wildcardBranches pattern identifier
  else some false

/-- The wildcard scan of `matchEvents` (lines 84–112) over the
`stringEvents` map, skipping the exact key, collecting the *keys* of the
matched buckets in iteration (= first-registration) order.  `Except.error`
models an exception escaping from the loop. -/
def matchWildKeys (m : List (List Char × Bucket)) (s : List Char) :
    Except Unit (List (List Char)) :=
  match m with
  | [] => .ok []
  | (p, _) :: rest =>
    if p = s then matchWildKeys rest s
    else
      match patMatch p s with
      | none => .error ()
      | some true =>
        match matchWildKeys rest s with
        | .error e => .error e
        | .ok ks => .ok (p :: ks)
      | some false => matchWildKeys rest s

/-- Models `matchEvents`, returning the *keys* of the matched buckets in
order (the source returns the bucket `Map` objects themselves; since
buckets are owned by their key, returning keys is equivalent and makes the
aliasing of in-place mutation explicit).  An existing-but-empty bucket is
included — an empty JS `Map` is truthy. -/
def matchEvents (st : BusState) (x : Ident) : Except Unit (List Ident) :=
  match x with
  | .val v =>
    .ok (match mapGet st.events v with
         | some _ => [x]
         | none => [])
  | .str s =>
    let exact : List Ident :=
      match mapGet st.stringEvents s with
      | some _ => [.str s]
      | none => []
    match matchWildKeys st.stringEvents s with
    | .error e => .error e
    | .ok ws => .ok (exact ++ ws.map .str)

/-! ### Registration (`event-bus.ts` lines 119–210) -/

/-- Models the private `register` method. -/
def register (st : BusState) (x : Ident) (f : Fn) (c : Cap) : BusState × Nat :=
  let newId := st.nextId
  let entry : EventConfig := { listener := f, capacity := c }
  let st1 :=
    match getEvent st x with
    | some configs => setEvent st x (mapSet configs newId entry)
    | none => setEvent st x [(newId, entry)]
  ({ st1 with idMap := mapSet st1.idMap newId x, nextId := newId + 1 }, newId)

/-- `on(listener)` — the single-argument overload: the function is both the
identifier and the listener, with capacity `Infinity`. -/
def on1 (st : BusState) (f : Fn) : BusState × Nat :=
  register st (.val (.fn f)) f .inf

/-- `on(identifier, listener)` — capacity defaults to `Infinity`.  The
`typeof b === 'function'` check always passes in the model (`Fn` values are
functions by construction); `expectEventName` may throw. -/
def on2 (st : BusState) (x : Ident) (f : Fn) : Except Unit (BusState × Nat) :=
  if expectEventNameOk x then .ok (register st x f .inf) else .error ()

/-- `on(identifier, listener, capacity)` with an integral capacity
argument. -/
def on3 (st : BusState) (x : Ident) (f : Fn) (c : Int) :
    Except Unit (BusState × Nat) :=
  if expectEventNameOk x then
    if isSafeIntegerPos c then .ok (register st x f (.fin c)) else .error ()
  else .error ()

/-- `once(listener)` — single-argument overload, capacity 1. -/
def once1 (st : BusState) (f : Fn) : BusState × Nat :=
  register st (.val (.fn f)) f (.fin 1)

/-- `once(identifier, listener)` — capacity 1. -/
def once2 (st : BusState) (x : Ident) (f : Fn) : Except Unit (BusState × Nat) :=
  if expectEventNameOk x then .ok (register st x f (.fin 1)) else .error ()

/-! ### Removal (`event-bus.ts` lines 217–261) -/

/-- Models `off`: exact-key bucket removal, deleting the bucket's ids from
`idMap` first. -/
def off (st : BusState) (x : Ident) : BusState × Bool :=
  match getEvent st x with
  | none => (st, false)
  | some m =>
    let idMap' := m.foldl (fun acc e => mapDelete acc e.1) st.idMap
    (deleteEvent { st with idMap := idMap' } x, true)

/-- Models `removeListener`.  In the branch where the id is found, the
source computes `a = idMap.delete(id)` (necessarily `true` there) and
`b = idConfigMap.delete(id)` and returns `a || b`, hence `true`.  The
emptied bucket is *not* removed from the registry. -/
def removeListener (st : BusState) (id : Nat) : BusState × Bool :=
  match mapGet st.idMap id with
  | none => (st, false)
  | some x =>
    match getEvent st x with
    | none => (st, false)
    | some b =>
      let st1 := { st with idMap := mapDelete st.idMap id }
      (setEvent st1 x (mapDelete b id), true)

/-- Models `clear`: the source clears `stringEvents` and `idMap` but not
the non-string `events` map (lines 258–261). -/
def clear (st : BusState) : BusState :=
  { st with stringEvents := [], idMap := [] }

/-! ### Emission (`event-bus.ts` lines 272–301) -/

/-- The per-id record stored into the emit result
(`result[id] = { result, identifier, rest }`; the listener's return value
is not modelled). -/
structure ResInfo where
  identRec : Option Ident
  rest : Cap
deriving DecidableEq, Repr

/-- The observable content of one emission: the `ids` array, the per-id
records, and the sequence of actually performed listener invocations (an
invocation is recorded even when the listener throws — the call happens
and then raises). -/
structure EmitAcc where
  ids : List Nat
  recs : List (Nat × ResInfo)
  calls : List (Nat × Fn)
deriving DecidableEq, Repr

/-- The empty accumulator. -/
def emptyAcc : EmitAcc := { ids := [], recs := [], calls := [] }

/-- How an `emit` call ends: an exception propagates to the caller
(`thrown`), the no-match marker `null` is returned (`nullRes`), or an
`EmitResult` is returned (`okRes`). -/
inductive EmitOut where
  | thrown : EmitOut
  | nullRes : EmitOut
  | okRes : EmitOut
deriving DecidableEq, Repr

/-- Applies a bucket mutation to the bucket stored under `x` (the source
mutates the `Map` object in place; the registry keeps pointing at it). -/
def updateBucket (st : BusState) (x : Ident) (f : Bucket → Bucket) : BusState :=
  match getEvent st x with
  | some b => setEvent st x (f b)
  | none => st

/-- The `maps[i].forEach((cfg, id) => …)` body of `emit` over one bucket.
`entries` is the bucket's entry list when its processing starts; the loop
only ever deletes or updates the entry currently being visited, so
iterating this snapshot coincides with JS's live `Map` iteration.  For
each entry: push the id, invoke the listener (a throw aborts everything,
keeping the state mutated so far), record
`{ result, identifier: idMap.get(id), rest: --cfg.capacity }`, write the
decremented capacity back, and prune the entry (bucket + `idMap`) when the
capacity dropped to `<= 0`.  The returned flag says whether a listener
threw. -/
def procEntries (key : Ident) :
    List (Nat × EventConfig) → BusState → EmitAcc → BusState × EmitAcc × Bool
  | [], st, acc => (st, acc, false)
  | (id, cfg) :: es, st, acc =>
    let acc1 :=
      { acc with
        ids := acc.ids ++ [id]
        calls := acc.calls ++ [(id, cfg.listener)] }
    if cfg.listener.throws then (st, acc1, true)
    else
      let rest := cfg.capacity.dec
      let acc2 :=
        { acc1 with
          recs := acc1.recs ++ [(id, { identRec := mapGet st.idMap id, rest := rest })] }
      let st1 :=
        if rest.le0 then
          let stB := updateBucket st key (fun b => mapDelete b id)
          { stB with idMap := mapDelete stB.idMap id }
        else
          updateBucket st key (fun b => mapSet b id { cfg with capacity := rest })
      procEntries key es st1 acc2

/-- The `for (let i = 0; i < maps.length; i++)` loop of `emit` over the
matched buckets, in resolution order. -/
def procBuckets : List Ident → BusState → EmitAcc → BusState × EmitAcc × Bool
  | [], st, acc => (st, acc, false)
  | k :: ks, st, acc =>
    let r := procEntries k ((getEvent st k).getD []) st acc
    if r.2.2 then r else procBuckets ks r.1 r.2.1

/-- Models `emit`: validate the identifier, resolve the matched buckets,
return `null` when none match, run the listeners, and return `null` when
the `ids` array stayed empty (`result.ids.length === 0 ? null : result`).
The final state is returned even when an exception propagates — partial
effects are not rolled back. -/
def emit (st : BusState) (x : Ident) : BusState × EmitAcc × EmitOut :=
  if expectEmitOk x then
    match matchEvents st x with
    | .error _ => (st, emptyAcc, .thrown)
    | .ok [] => (st, emptyAcc, .nullRes)
    | .ok (k :: ks) =>
      let r := procBuckets (k :: ks) st emptyAcc
      if r.2.2 then (r.1, r.2.1, .thrown)
      else if r.2.1.ids.isEmpty then (r.1, r.2.1, .nullRes)
      else (r.1, r.2.1, .okRes)
  else (st, emptyAcc, .thrown)

/-! ## Helper lemmas about the map and string models -/

section MapLemmas

variable {κ β : Type} [DecidableEq κ]

theorem mapGet_mapSet_self (m : List (κ × β)) (k : κ) (v : β) :
    mapGet (mapSet m k v) k = some v := by
  induction m with
  | nil => simp [mapGet, mapSet]
  | cons e r ih =>
    obtain ⟨k', v'⟩ := e
    by_cases h : k' = k <;> simp [mapGet, mapSet, h, ih]

theorem mapGet_mapSet_ne (m : List (κ × β)) {k k' : κ} (v : β) (h : k' ≠ k) :
    mapGet (mapSet m k v) k' = mapGet m k' := by
  induction m with
  | nil => simp [mapGet, mapSet, Ne.symm h]
  | cons e r ih =>
    obtain ⟨k'', v''⟩ := e
    by_cases h2 : k'' = k
    · subst h2; simp [mapGet, mapSet, Ne.symm h]
    · by_cases h3 : k'' = k' <;> simp [mapGet, mapSet, h2, h3, ih, h]

theorem mapGet_eq_none_iff (m : List (κ × β)) (k : κ) :
    mapGet m k = none ↔ k ∉ m.map Prod.fst := by
  induction m with
  | nil => simp [mapGet]
  | cons e r ih =>
    obtain ⟨k', v'⟩ := e
    by_cases h : k' = k
    · simp [mapGet, h]
    · have h' : ¬k = k' := fun hh => h hh.symm
      simp [mapGet, h, ih, h']

theorem mapSet_keys_of_mem (m : List (κ × β)) {k : κ} (v : β)
    (h : (mapGet m k).isSome) :
    (mapSet m k v).map Prod.fst = m.map Prod.fst := by
  induction m with
  | nil => simp [mapGet] at h
  | cons e r ih =>
    obtain ⟨k', v'⟩ := e
    by_cases h2 : k' = k
    · simp [mapSet, h2]
    · simp [mapGet, h2] at h
      simp [mapSet, h2, ih h]

theorem mapSet_append_of_not_mem (m : List (κ × β)) {k : κ} (v : β)
    (h : k ∉ m.map Prod.fst) :
    mapSet m k v = m ++ [(k, v)] := by
  induction m with
  | nil => simp [mapSet]
  | cons e r ih =>
    obtain ⟨k', v'⟩ := e
    simp only [List.map_cons, List.mem_cons] at h
    push_neg at h
    simp [mapSet, Ne.symm h.1, ih h.2]

theorem mapSet_append_not_mem_left (done r : List (κ × β)) {k : κ} (v v' : β)
    (h : k ∉ done.map Prod.fst) :
    mapSet (done ++ (k, v) :: r) k v' = done ++ (k, v') :: r := by
  induction done with
  | nil => simp [mapSet]
  | cons e d ih =>
    obtain ⟨k', v''⟩ := e
    simp only [List.map_cons, List.mem_cons] at h
    push_neg at h
    simp [mapSet, Ne.symm h.1, ih h.2]

theorem mapDelete_append_not_mem_left (done r : List (κ × β)) {k : κ} (v : β)
    (h : k ∉ done.map Prod.fst) :
    mapDelete (done ++ (k, v) :: r) k = done ++ r := by
  induction done with
  | nil => simp [mapDelete]
  | cons e d ih =>
    obtain ⟨k', v''⟩ := e
    simp only [List.map_cons, List.mem_cons] at h
    push_neg at h
    simp [mapDelete, Ne.symm h.1, ih h.2]

theorem mapGet_append_not_mem_left (done r : List (κ × β)) {k : κ} (v : β)
    (h : k ∉ done.map Prod.fst) :
    mapGet (done ++ (k, v) :: r) k = some v := by
  induction done with
  | nil => simp [mapGet]
  | cons e d ih =>
    obtain ⟨k', v''⟩ := e
    simp only [List.map_cons, List.mem_cons] at h
    push_neg at h
    simp [mapGet, Ne.symm h.1, ih h.2]

end MapLemmas

section StringLemmas

theorem startsWithL_iff_append (s p : List Char) :
    startsWithL s p = true ↔ ∃ r, s = p ++ r := by
  induction p generalizing s with
  | nil => simp [startsWithL]
  | cons d p ih =>
    cases s with
    | nil => simp [startsWithL]
    | cons c s =>
      simp only [startsWithL, Bool.and_eq_true, beq_iff_eq, ih, List.cons_append,
        List.cons.injEq]
      constructor
      · rintro ⟨rfl, r, rfl⟩; exact ⟨r, rfl, rfl⟩
      · rintro ⟨r, rfl, rfl⟩; exact ⟨rfl, r, rfl⟩

theorem startsWithL_append_self (p r : List Char) :
    startsWithL (p ++ r) p = true :=
  (startsWithL_iff_append _ _).mpr ⟨r, rfl⟩

theorem endsWithL_append_self (x y : List Char) :
    endsWithL (x ++ y) y = true := by
  unfold endsWithL
  rw [List.reverse_append]
  exact startsWithL_append_self _ _

theorem hasChar_append (c : Char) (a b : List Char) :
    hasChar c (a ++ b) = (hasChar c a || hasChar c b) := by
  induction a with
  | nil => simp [hasChar]
  | cons d r ih => simp [hasChar, ih, Bool.or_assoc]

theorem dropLastN_append (x y : List Char) :
    dropLastN y.length (x ++ y) = x := by
  unfold dropLastN
  rw [List.length_append, Nat.add_sub_cancel, List.take_left]

theorem endsWithDot_concat_dot (pre : List Char) :
    endsWithDot (pre ++ ['.']) = true := by
  simp [endsWithDot, List.getLast?_concat]

end StringLemmas

section ValidatorLemmas

theorem startsWithDot_iff (s : List Char) :
    startsWithDot s = true ↔ s.head? = some '.' := by
  cases s with
  | nil => simp [startsWithDot]
  | cons c r => simp [startsWithDot]

theorem endsWithDot_iff (s : List Char) :
    endsWithDot s = true ↔ s.getLast? = some '.' := by
  unfold endsWithDot
  cases h : s.getLast? with
  | none => simp
  | some c => simp [beq_iff_eq]

theorem hasRun3_iff (s : List Char) :
    hasRun3 s = true ↔ ∃ l r, s = l ++ '*' :: '*' :: '*' :: r := by
  induction s with
  | nil => simp [hasRun3]
  | cons c t ih =>
    simp only [hasRun3, Bool.or_eq_true, Bool.and_eq_true, beq_iff_eq,
      startsWithL_iff_append, ih]
    constructor
    · rintro (⟨rfl, rr, rfl⟩ | ⟨l, r, rfl⟩)
      · exact ⟨[], rr, rfl⟩
      · exact ⟨c :: l, r, rfl⟩
    · rintro ⟨l, r, hl⟩
      cases l with
      | nil =>
        obtain ⟨rfl, rfl⟩ : c = '*' ∧ t = '*' :: '*' :: r := by
          constructor <;> injection hl
        exact Or.inl ⟨rfl, r, rfl⟩
      | cons d l' =>
        obtain ⟨rfl, rfl⟩ : c = d ∧ t = l' ++ '*' :: '*' :: '*' :: r := by
          constructor <;> injection hl
        exact Or.inr ⟨l', r, rfl⟩

theorem splitFirstStar_of_eq_some (s : List Char) :
    ∀ b a, splitFirstStar s = some (b, a) → s = b ++ '*' :: a ∧ '*' ∉ b := by
  induction s with
  | nil => intro b a h; simp [splitFirstStar] at h
  | cons c t ih =>
    intro b a h
    rw [splitFirstStar] at h
    by_cases hc : c = '*'
    · rw [if_pos hc] at h
      obtain ⟨rfl, rfl⟩ : b = [] ∧ a = t := by
        injection h with h'
        injection h' with h1 h2
        exact ⟨h1.symm, h2.symm⟩
      simp [hc]
    · rw [if_neg hc] at h
      cases hsp : splitFirstStar t with
      | none => rw [hsp] at h; simp at h
      | some p =>
        obtain ⟨b', a'⟩ := p
        rw [hsp] at h
        obtain ⟨rfl, rfl⟩ : b = c :: b' ∧ a = a' := by
          injection h with h'
          injection h' with h1 h2
          exact ⟨h1.symm, h2.symm⟩
        obtain ⟨ht, hnb⟩ := ih b' a hsp
        refine ⟨by rw [ht]; rfl, ?_⟩
        simp only [List.mem_cons, not_or]
        exact ⟨fun hh => hc hh.symm, hnb⟩

theorem splitFirstStar_eq_some_of (b a : List Char) (hnb : '*' ∉ b) :
    splitFirstStar (b ++ '*' :: a) = some (b, a) := by
  induction b with
  | nil => simp [splitFirstStar]
  | cons c t ih =>
    simp only [List.mem_cons, not_or] at hnb
    rw [List.cons_append, splitFirstStar, if_neg (fun hh => hnb.1 hh.symm),
      ih hnb.2]

theorem splitFirstStar_eq_none_iff (s : List Char) :
    splitFirstStar s = none ↔ '*' ∉ s := by
  induction s with
  | nil => simp [splitFirstStar]
  | cons c t ih =>
    rw [splitFirstStar]
    by_cases hc : c = '*'
    · subst hc; simp
    · rw [if_neg hc]
      cases hsp : splitFirstStar t with
      | none =>
        have hc' : ¬('*' = c) := fun hh => hc hh.symm
        simp [ih.mp hsp, hc']
      | some p =>
        obtain ⟨b', a'⟩ := p
        have : '*' ∈ t := by
          obtain ⟨ht, _⟩ := splitFirstStar_of_eq_some t b' a' hsp
          rw [ht]; simp
        simp [this]

theorem headIsDot_eq_false_iff (a : List Char) :
    headIsDot a = false ↔ a.head? ≠ some '.' := by
  cases a with
  | nil => simp [headIsDot]
  | cons c t => simp [headIsDot]

theorem endsWithDot_eq_false_iff (b : List Char) :
    endsWithDot b = false ↔ b.getLast? ≠ some '.' := by
  rw [ne_eq, ← endsWithDot_iff]
  simp

/-- When the normalized name has a star, the adjacency stage computes
"dot just before the first star, or dot just after it". -/
theorem starAdjOk_eq_of_split (name b a : List Char)
    (hsp : splitFirstStar name = some (b, a)) :
    starAdjOk name = (endsWithDot b || headIsDot a) := by
  unfold starAdjOk
  rw [hsp]
  match b, a with
  | [], [] => simp [endsWithDot, headIsDot]
  | [], c :: t => simp [endsWithDot, headIsDot]
  | d :: bt, [] => rfl
  | d :: bt, c :: t => rfl

/-- The registration validator's star-adjacency stage fails exactly on
names whose first star (the decomposition with a star-free left part) has
no dot immediately before it and no dot immediately after it; the bare
name `"*"` is the special case where both sides are empty. -/
theorem starAdjOk_eq_false_iff (name : List Char) :
    starAdjOk name = false ↔
      ∃ l r, name = l ++ '*' :: r ∧ '*' ∉ l ∧
        l.getLast? ≠ some '.' ∧ r.head? ≠ some '.' := by
  cases hsp : splitFirstStar name with
  | none =>
    have hns : '*' ∉ name := (splitFirstStar_eq_none_iff name).mp hsp
    have : starAdjOk name = true := by unfold starAdjOk; rw [hsp]
    rw [this]
    constructor
    · intro h; exact absurd h (by simp)
    · rintro ⟨l, r, rfl, -, -, -⟩
      exact absurd (by simp : '*' ∈ l ++ '*' :: r) hns
  | some p =>
    obtain ⟨b, a⟩ := p
    obtain ⟨hname, hnb⟩ := splitFirstStar_of_eq_some name b a hsp
    have huniq : ∀ l r, name = l ++ '*' :: r → '*' ∉ l → l = b ∧ r = a := by
      intro l r hlr hnl
      have h2 := splitFirstStar_eq_some_of l r hnl
      rw [← hlr, hsp] at h2
      injection h2 with h'
      injection h' with ha hb
      exact ⟨ha.symm, hb.symm⟩
    rw [starAdjOk_eq_of_split name b a hsp, Bool.or_eq_false_iff,
      endsWithDot_eq_false_iff, headIsDot_eq_false_iff]
    constructor
    · rintro ⟨h1, h2⟩
      exact ⟨b, a, hname, hnb, h1, h2⟩
    · rintro ⟨l, r, hlr, hnl, h1, h2⟩
      obtain ⟨rfl, rfl⟩ := huniq l r hlr hnl
      exact ⟨h1, h2⟩

end ValidatorLemmas

section StateLemmas

theorem getEvent_setEvent_self (st : BusState) (x : Ident) (b : Bucket) :
    getEvent (setEvent st x b) x = some b := by
  cases x <;> simp [getEvent, setEvent, mapGet_mapSet_self]

theorem getEvent_setEvent_ne (st : BusState) (x : Ident) (b : Bucket)
    {x' : Ident} (h : x' ≠ x) :
    getEvent (setEvent st x b) x' = getEvent st x' := by
  cases x with
  | str s =>
    cases x' with
    | str s' =>
      have hs : s' ≠ s := fun hh => h (by rw [hh])
      simp [getEvent, setEvent, mapGet_mapSet_ne _ _ hs]
    | val v' => simp [getEvent, setEvent]
  | val v =>
    cases x' with
    | str s' => simp [getEvent, setEvent]
    | val v' =>
      have hv : v' ≠ v := fun hh => h (by rw [hh])
      simp [getEvent, setEvent, mapGet_mapSet_ne _ _ hv]

theorem getEvent_withIdMap (st : BusState) (m : List (Nat × Ident)) (x : Ident) :
    getEvent { st with idMap := m } x = getEvent st x := by
  cases x <;> rfl

/-- The pair of registered-key lists; `emit` and `removeListener` never
change it. -/
def keyShape (st : BusState) : List (List Char) × List JSVal :=
  (st.stringEvents.map Prod.fst, st.events.map Prod.fst)

theorem keyShape_setEvent_of_isSome (st : BusState) (x : Ident) (b : Bucket)
    (h : (getEvent st x).isSome) :
    keyShape (setEvent st x b) = keyShape st := by
  cases x with
  | str s =>
    simp only [getEvent] at h
    simp [keyShape, setEvent, mapSet_keys_of_mem _ _ h]
  | val v =>
    simp only [getEvent] at h
    simp [keyShape, setEvent, mapSet_keys_of_mem _ _ h]

theorem keyShape_updateBucket (st : BusState) (x : Ident) (f : Bucket → Bucket) :
    keyShape (updateBucket st x f) = keyShape st := by
  unfold updateBucket
  cases hg : getEvent st x with
  | none => rfl
  | some b => exact keyShape_setEvent_of_isSome st x (f b) (by rw [hg]; rfl)

theorem keyShape_withIdMap (st : BusState) (m : List (Nat × Ident)) :
    keyShape { st with idMap := m } = keyShape st := rfl

theorem getEvent_updateBucket_ne (st : BusState) (x : Ident) (f : Bucket → Bucket)
    {x' : Ident} (h : x' ≠ x) :
    getEvent (updateBucket st x f) x' = getEvent st x' := by
  unfold updateBucket
  cases getEvent st x with
  | none => rfl
  | some b => exact getEvent_setEvent_ne st x (f b) h

theorem getEvent_updateBucket_self (st : BusState) (x : Ident) (f : Bucket → Bucket)
    {b : Bucket} (h : getEvent st x = some b) :
    getEvent (updateBucket st x f) x = some (f b) := by
  unfold updateBucket
  rw [h]
  exact getEvent_setEvent_self st x (f b)

theorem keys_updateBucket_str (st : BusState) (x : Ident) (f : Bucket → Bucket) :
    (updateBucket st x f).stringEvents.map Prod.fst =
      st.stringEvents.map Prod.fst :=
  congrArg Prod.fst (keyShape_updateBucket st x f)

theorem keys_updateBucket_val (st : BusState) (x : Ident) (f : Bucket → Bucket) :
    (updateBucket st x f).events.map Prod.fst = st.events.map Prod.fst :=
  congrArg Prod.snd (keyShape_updateBucket st x f)

end StateLemmas

section EmitLemmas

theorem procEntries_keyShape (key : Ident) (es : List (Nat × EventConfig)) :
    ∀ st acc, keyShape (procEntries key es st acc).1 = keyShape st := by
  induction es with
  | nil => intro st acc; rfl
  | cons e es ih =>
    intro st acc
    obtain ⟨id, cfg⟩ := e
    simp only [procEntries]
    by_cases ht : cfg.listener.throws = true
    · rw [if_pos ht]
    · rw [if_neg ht]
      by_cases hl : (cfg.capacity.dec).le0 = true
      · rw [if_pos hl, ih, keyShape_withIdMap, keyShape_updateBucket]
      · rw [if_neg hl, ih, keyShape_updateBucket]

theorem procEntries_getEvent_ne (key : Ident) (es : List (Nat × EventConfig)) :
    ∀ st acc {x'}, x' ≠ key →
      getEvent (procEntries key es st acc).1 x' = getEvent st x' := by
  induction es with
  | nil => intro st acc x' _; rfl
  | cons e es ih =>
    intro st acc x' hx
    obtain ⟨id, cfg⟩ := e
    simp only [procEntries]
    by_cases ht : cfg.listener.throws = true
    · rw [if_pos ht]
    · rw [if_neg ht]
      by_cases hl : (cfg.capacity.dec).le0 = true
      · rw [if_pos hl, ih _ _ hx, getEvent_withIdMap]
        exact getEvent_updateBucket_ne st key _ hx
      · rw [if_neg hl, ih _ _ hx]
        exact getEvent_updateBucket_ne st key _ hx

theorem procEntries_no_throw (key : Ident) (es : List (Nat × EventConfig)) :
    ∀ st acc, (∀ e ∈ es, e.2.listener.throws = false) →
      (procEntries key es st acc).2.2 = false ∧
      (procEntries key es st acc).2.1.ids = acc.ids ++ es.map Prod.fst ∧
      (procEntries key es st acc).2.1.calls =
        acc.calls ++ es.map (fun e => (e.1, e.2.listener)) := by
  induction es with
  | nil => intro st acc _; simp [procEntries]
  | cons e es ih =>
    intro st acc hth
    obtain ⟨id, cfg⟩ := e
    have ht : ¬cfg.listener.throws = true := by
      rw [hth (id, cfg) (by simp)]; simp
    simp only [procEntries]
    rw [if_neg ht]
    have hth' : ∀ e ∈ es, e.2.listener.throws = false :=
      fun e he => hth e (by simp [he])
    by_cases hl : (cfg.capacity.dec).le0 = true <;>
      [rw [if_pos hl]; rw [if_neg hl]] <;>
      · obtain ⟨h1, h2, h3⟩ := ih _ _ hth'
        refine ⟨h1, ?_, ?_⟩
        · rw [h2]; simp
        · rw [h3]; simp

/-- Pointwise-equal functions give equal `flatMap`s. -/
theorem flatMap_congr_mem {α β : Type} {l : List α} {f g : α → List β}
    (h : ∀ a ∈ l, f a = g a) : l.flatMap f = l.flatMap g := by
  induction l with
  | nil => rfl
  | cons a t ih =>
    simp only [List.flatMap_cons]
    rw [h a (by simp), ih (fun a ha => h a (by simp [ha]))]

theorem procBuckets_keyShape (keys : List Ident) :
    ∀ st acc, keyShape (procBuckets keys st acc).1 = keyShape st := by
  induction keys with
  | nil => intro st acc; rfl
  | cons k ks ih =>
    intro st acc
    simp only [procBuckets]
    by_cases hthr : (procEntries k ((getEvent st k).getD []) st acc).2.2 = true
    · rw [if_pos hthr]
      exact procEntries_keyShape k _ st acc
    · rw [if_neg hthr, ih]
      exact procEntries_keyShape k _ st acc

theorem procBuckets_no_throw (keys : List Ident) :
    ∀ st acc, keys.Nodup →
      (∀ k ∈ keys, ∀ e ∈ (getEvent st k).getD [], e.2.listener.throws = false) →
      (procBuckets keys st acc).2.2 = false ∧
      (procBuckets keys st acc).2.1.ids =
        acc.ids ++ keys.flatMap (fun k => ((getEvent st k).getD []).map Prod.fst) ∧
      (procBuckets keys st acc).2.1.calls =
        acc.calls ++ keys.flatMap
          (fun k => ((getEvent st k).getD []).map (fun e => (e.1, e.2.listener))) := by
  induction keys with
  | nil => intro st acc _ _; simp [procBuckets]
  | cons k ks ih =>
    intro st acc hnd hth
    simp only [procBuckets]
    obtain ⟨h1, h2, h3⟩ :=
      procEntries_no_throw k ((getEvent st k).getD []) st acc
        (hth k (by simp))
    rw [if_neg (by rw [h1]; simp)]
    have hne : ∀ k' ∈ ks, k' ≠ k := by
      intro k' hk' heq
      rw [List.nodup_cons] at hnd
      exact hnd.1 (heq ▸ hk')
    have hpres : ∀ k' ∈ ks,
        getEvent (procEntries k ((getEvent st k).getD []) st acc).1 k' =
          getEvent st k' :=
      fun k' hk' => procEntries_getEvent_ne k _ st acc (hne k' hk')
    have hth' : ∀ k' ∈ ks,
        ∀ e ∈ (getEvent (procEntries k ((getEvent st k).getD []) st acc).1 k').getD [],
          e.2.listener.throws = false := by
      intro k' hk'
      rw [hpres k' hk']
      exact hth k' (by simp [hk'])
    obtain ⟨g1, g2, g3⟩ :=
      ih (procEntries k ((getEvent st k).getD []) st acc).1
        (procEntries k ((getEvent st k).getD []) st acc).2.1
        ((List.nodup_cons.mp hnd).2) hth'
    refine ⟨g1, ?_, ?_⟩
    · rw [g2, h2, flatMap_congr_mem
        (fun k' hk' => by rw [hpres k' hk'])]
      simp [List.flatMap_cons]
    · rw [g3, h3, flatMap_congr_mem
        (fun k' hk' => by rw [hpres k' hk'])]
      simp [List.flatMap_cons]

/-- The wildcard scan, when it completes without an exception, returns
exactly the keys of the registered string buckets whose pattern is not the
emitted identifier itself and matches it, in map order. -/
theorem matchWildKeys_ok (s : List Char) (m : List (List Char × Bucket)) :
    ∀ ws, matchWildKeys m s = .ok ws →
      ws = (m.filter (fun pb => !(pb.1 == s) &&
        decide (patMatch pb.1 s = some true))).map Prod.fst := by
  induction m with
  | nil =>
    intro ws h
    injection h with h'
    rw [← h']; rfl
  | cons pb rest ih =>
    intro ws h
    obtain ⟨p, b⟩ := pb
    rw [matchWildKeys] at h
    by_cases hps : p = s
    · rw [if_pos hps] at h
      rw [ih ws h, List.filter_cons]
      simp [hps]
    · rw [if_neg hps] at h
      cases hp : patMatch p s with
      | none => rw [hp] at h; exact absurd h (by simp)
      | some bv =>
        rw [hp] at h
        cases bv with
        | false =>
          rw [ih ws h, List.filter_cons]
          simp [hp]
        | true =>
          cases hrec : matchWildKeys rest s with
          | error e => rw [hrec] at h; exact absurd h (by simp)
          | ok ks =>
            rw [hrec] at h
            injection h with h'
            rw [← h', ih ks hrec, List.filter_cons]
            simp [hps, hp]

end EmitLemmas

section RegisterLemmas

theorem getEvent_withIdMapNextId (st : BusState) (m : List (Nat × Ident)) (n : Nat)
    (x : Ident) : getEvent { st with idMap := m, nextId := n } x = getEvent st x := by
  cases x <;> rfl

/-- `register` appends a fresh entry (with the current id counter as its
id) to the identifier's bucket, preserving existing entries, provided all
existing ids are below the counter — which holds in every reachable state
since the counter only grows. -/
theorem register_spec (st : BusState) (x : Ident) (f : Fn) (c : Cap)
    (hfresh : ∀ e ∈ (getEvent st x).getD [], e.1 < st.nextId) :
    (register st x f c).2 = st.nextId ∧
    (register st x f c).1.nextId = st.nextId + 1 ∧
    getEvent (register st x f c).1 x =
      some ((getEvent st x).getD [] ++
        [(st.nextId, { listener := f, capacity := c })]) ∧
    (∀ e ∈ (getEvent (register st x f c).1 x).getD [],
      e.1 < (register st x f c).1.nextId) := by
  have h3 : getEvent (register st x f c).1 x =
      some ((getEvent st x).getD [] ++
        [(st.nextId, { listener := f, capacity := c })]) := by
    simp only [register]
    cases hg : getEvent st x with
    | none =>
      rw [getEvent_withIdMapNextId, getEvent_setEvent_self]
      simp
    | some b =>
      have hnotmem : st.nextId ∉ b.map Prod.fst := by
        intro hmem
        obtain ⟨e, he, hfst⟩ := List.mem_map.mp hmem
        have := hfresh e (by rw [hg]; exact he)
        omega
      rw [getEvent_withIdMapNextId, getEvent_setEvent_self,
        mapSet_append_of_not_mem b _ hnotmem]
      simp
  refine ⟨rfl, rfl, h3, ?_⟩
  intro e he
  rw [h3] at he
  simp only [Option.getD_some, List.mem_append, List.mem_singleton] at he
  show e.1 < st.nextId + 1
  rcases he with he | rfl
  · have := hfresh e he; omega
  · simp

end RegisterLemmas

/-! ## Theorems for the claims -/

/-- **C1.** The claim states that a registered pattern with a
single-segment wildcard matches in *any* position, including a leading one
as in `'*.end'`.  The code contradicts this: its matcher only has branches
for patterns ending in `'.**'` or `'.*'` and for patterns containing the
substring `'.*'`; a leading-star pattern such as `'*.end'` fits none of
them, so it never matches anything — even though the registration
validator accepts it (and the validator's own error message presents
`'*.end'` as a valid example).  Concretely: `'*.end'` registers fine,
`'a.end'` is a valid concrete identifier, the claim mandates a match, and
the code's `isMatch` is `false`; an emit of `'a.end'` after registering
only `'*.end'` returns the no-match marker `null`. -/
theorem c1_leading_wildcard_dead :
    expectEventNameOk (.str "*.end".toList) = true ∧
    expectEmitOk (.str "a.end".toList) = true ∧
    patMatch "*.end".toList "a.end".toList = some false ∧
    ∃ st1, on2 freshBus (.str "*.end".toList) ⟨0, false⟩ = .ok (st1, 0) ∧
      (emit st1 (.str "a.end".toList)).2 = (emptyAcc, .nullRes) := by
  refine ⟨by decide, by decide, by decide,
    ⟨{ stringEvents := [("*.end".toList, [(0, ⟨⟨0, false⟩, .inf⟩)])],
       events := [], idMap := [(0, .str "*.end".toList)], nextId := 1 }, ?_, ?_⟩⟩ <;> rfl

/-- **C2.** A registered trailing multi-segment wildcard pattern
`prefix.**` matches a concrete emitted string identifier iff the
identifier equals `prefix` itself, or equals `prefix` followed by `'.'`
and a non-empty remainder (which may itself contain dots). -/
theorem c2_trailing_multiseg (pre s : List Char)
    (hvalid : expectEmitOk (.str s) = true) :
    patMatch (pre ++ ['.', '*', '*']) s = some true ↔
      s = pre ∨ ∃ r, r ≠ [] ∧ s = pre ++ '.' :: r := by
  have hend : endsWithDot s = false := by
    simp only [expectEmitOk, Bool.and_eq_true, Bool.not_eq_true'] at hvalid
    exact hvalid.1.2
  have hstar : hasChar '*' (pre ++ ['.', '*', '*']) = true := by
    rw [hasChar_append]; simp [hasChar]
  have hsuffix : endsWithL (pre ++ ['.', '*', '*']) ".**".toList = true := by
    have : ".**".toList = ['.', '*', '*'] := by decide
    rw [this]; exact endsWithL_append_self _ _
  have hdrop : dropLastN 3 (pre ++ ['.', '*', '*']) = pre := by
    have : (3 : Nat) = (['.', '*', '*'] : List Char).length := by decide
    rw [this]; exact dropLastN_append _ _
  rw [patMatch, if_pos hstar, wildcardBranches, if_pos hsuffix, hdrop]
  simp only [Option.some_inj, Bool.or_eq_true, beq_iff_eq, startsWithL_iff_append]
  constructor
  · rintro (rfl | ⟨r, hr⟩)
    · exact Or.inl rfl
    · refine Or.inr ⟨r, ?_, by simpa using hr⟩
      rintro rfl
      rw [show (pre ++ ['.']) ++ ([] : List Char) = pre ++ ['.'] from by simp] at hr
      rw [hr, endsWithDot_concat_dot] at hend
      exact absurd hend (by simp)
  · rintro (rfl | ⟨r, _, rfl⟩)
    · exact Or.inl rfl
    · exact Or.inr ⟨r, by simp⟩

/-- Witness for C2 at a concrete input: `'user.**'` matches
`'user.login'`. -/
theorem c2_trailing_multiseg_witness :
    patMatch ("user".toList ++ ['.', '*', '*']) "user.login".toList = some true :=
  (c2_trailing_multiseg "user".toList "user.login".toList (by decide)).mpr
    (Or.inr ⟨"login".toList, by decide, by decide⟩)

/-- **C3.** On a fresh bus, after `on('e', cb, 2)`, three successive
`emit('e')` calls invoke `cb` exactly twice (on the first and second
emit); the first emit's result records remaining capacity 1 and the second
records 0 for the listener's id; the third emit returns the no-match
marker `null`. -/
theorem c3_capacity_exhaustion (t : Nat) :
    ∃ st1 : BusState,
      on3 freshBus (.str ['e']) ⟨t, false⟩ 2 = .ok (st1, 0) ∧
      (emit st1 (.str ['e'])).2.1.calls = [(0, ⟨t, false⟩)] ∧
      mapGet (emit st1 (.str ['e'])).2.1.recs 0 =
        some { identRec := some (.str ['e']), rest := .fin 1 } ∧
      (emit st1 (.str ['e'])).2.2 = .okRes ∧
      (emit (emit st1 (.str ['e'])).1 (.str ['e'])).2.1.calls = [(0, ⟨t, false⟩)] ∧
      mapGet (emit (emit st1 (.str ['e'])).1 (.str ['e'])).2.1.recs 0 =
        some { identRec := some (.str ['e']), rest := .fin 0 } ∧
      (emit (emit st1 (.str ['e'])).1 (.str ['e'])).2.2 = .okRes ∧
      (emit (emit (emit st1 (.str ['e'])).1 (.str ['e'])).1 (.str ['e'])).2 =
        (emptyAcc, .nullRes) := by
  exact ⟨{ stringEvents := [(['e'], [(0, ⟨⟨t, false⟩, .fin 2⟩)])],
           events := [], idMap := [(0, .str ['e'])], nextId := 1 },
         rfl, rfl, rfl, rfl, rfl, rfl, rfl, rfl⟩

/-- **C4 counterexample.** The claim asserts that an identifier with more
than two `'*'` characters in total is rejected at registration.  The code
never counts stars: it only rejects runs of three-plus and checks
dot-adjacency of the *first* star of the normalized name.  The identifier
`'*.a.*.b.*'` has three stars in total yet passes the validator. -/
theorem c4_star_count_not_checked :
    expectEventNameOk (.str "*.a.*.b.*".toList) = true ∧
    (("*.a.*.b.*".toList).count '*' = 3) := by
  exact ⟨by decide, by decide⟩

/-- **C4 (amended).** Registration with a textual identifier fails iff the
identifier starts or ends with `'.'`, or contains a run of three or more
consecutive `'*'`, or — after collapsing every run of two-plus stars to a
single star — the *first* star of the collapsed name has no `'.'`
immediately before it and none immediately after it (the collapsed name
being exactly `"*"` is the special case of this with nothing on either
side).  The total number of stars is not limited, stars after the first
are not checked, and non-string identifiers are always accepted. -/
theorem c4_registration_validation :
    (∀ s : List Char,
      expectEventNameOk (.str s) = false ↔
        s.head? = some '.' ∨ s.getLast? = some '.' ∨
        (∃ l r, s = l ++ '*' :: '*' :: '*' :: r) ∨
        (∃ l r, collapseStars s = l ++ '*' :: r ∧ '*' ∉ l ∧
          l.getLast? ≠ some '.' ∧ r.head? ≠ some '.')) ∧
    (∀ v, expectEventNameOk (.val v) = true) := by
  refine ⟨fun s => ?_, fun v => rfl⟩
  rw [show expectEventNameOk (.str s) =
      (!startsWithDot s && !endsWithDot s && !hasRun3 s &&
        starAdjOk (collapseStars s)) from rfl]
  rw [← startsWithDot_iff, ← endsWithDot_iff, ← hasRun3_iff,
    ← starAdjOk_eq_false_iff]
  cases startsWithDot s <;> cases endsWithDot s <;> cases hasRun3 s <;>
    cases starAdjOk (collapseStars s) <;> simp

/-- **C5.** For an emission with a textual identifier that completes
(valid identifier, no listener throws; the registered key list of a JS
`Map` is duplicate-free), the resolved buckets are the exact-match bucket
first (when present) followed by every matching wildcard-pattern bucket in
registration order; the `ids` array is exactly the concatenation, bucket
by bucket in that order, of each resolved bucket's entry ids in insertion
order — and it lists the invoked listeners in invocation order. -/
theorem c5_resolution_order (st : BusState) (s : List Char) (keys : List Ident)
    (hvalid : expectEmitOk (.str s) = true)
    (hnodup : (st.stringEvents.map Prod.fst).Nodup)
    (hmatch : matchEvents st (.str s) = .ok keys)
    (hth : ∀ k ∈ keys, ∀ e ∈ (getEvent st k).getD [], e.2.listener.throws = false) :
    keys =
      (match mapGet st.stringEvents s with
       | some _ => [Ident.str s]
       | none => []) ++
        ((st.stringEvents.filter (fun pb => !(pb.1 == s) &&
            decide (patMatch pb.1 s = some true))).map (fun pb => Ident.str pb.1)) ∧
    (emit st (.str s)).2.2 ≠ .thrown ∧
    (emit st (.str s)).2.1.ids =
      keys.flatMap (fun k => ((getEvent st k).getD []).map Prod.fst) ∧
    (emit st (.str s)).2.1.calls.map Prod.fst = (emit st (.str s)).2.1.ids := by
  obtain ⟨ws, hw, hkeys⟩ :
      ∃ ws, matchWildKeys st.stringEvents s = .ok ws ∧
        keys = (match mapGet st.stringEvents s with
                | some _ => [Ident.str s]
                | none => []) ++ ws.map .str := by
    rw [matchEvents] at hmatch
    cases hwk : matchWildKeys st.stringEvents s with
    | error e => rw [hwk] at hmatch; exact absurd hmatch (by simp)
    | ok ws =>
      rw [hwk] at hmatch
      injection hmatch with h'
      exact ⟨ws, rfl, h'.symm⟩
  have hwsf := matchWildKeys_ok s st.stringEvents ws hw
  have hfirst : keys =
      (match mapGet st.stringEvents s with
       | some _ => [Ident.str s]
       | none => []) ++
        ((st.stringEvents.filter (fun pb => !(pb.1 == s) &&
            decide (patMatch pb.1 s = some true))).map (fun pb => Ident.str pb.1)) := by
    rw [hkeys, hwsf, List.map_map]
    rfl
  have hwnd : ws.Nodup := by
    rw [hwsf]
    exact List.Nodup.sublist ((List.filter_sublist _).map Prod.fst) hnodup
  have hstrinj : Function.Injective Ident.str := fun a b h => by injection h
  have hsmem : Ident.str s ∉ ws.map Ident.str := by
    intro hmem
    obtain ⟨p, hp, hps⟩ := List.mem_map.mp hmem
    have hpeq : p = s := hstrinj hps
    rw [hwsf] at hp
    obtain ⟨pb, hpb, hfst⟩ := List.mem_map.mp hp
    have hcond := (List.mem_filter.mp hpb).2
    rw [Bool.and_eq_true, Bool.not_eq_eq_eq_not, Bool.not_true,
      beq_eq_false_iff_ne] at hcond
    exact hcond.1 (by rw [hfst, hpeq])
  have hknd : keys.Nodup := by
    rw [hkeys]
    cases hmg : mapGet st.stringEvents s with
    | none => simpa using hwnd.map hstrinj
    | some b =>
      simp only [List.singleton_append, List.nodup_cons]
      exact ⟨hsmem, hwnd.map hstrinj⟩
  rw [emit, if_pos hvalid, hmatch]
  cases keys with
  | nil =>
    refine ⟨hfirst, by simp, by simp [emptyAcc], by simp [emptyAcc]⟩
  | cons k ks =>
    obtain ⟨g1, g2, g3⟩ := procBuckets_no_throw (k :: ks) st emptyAcc hknd hth
    simp only []
    rw [if_neg (by rw [g1]; simp)]
    have hids : (procBuckets (k :: ks) st emptyAcc).2.1.ids =
        (k :: ks).flatMap (fun k => ((getEvent st k).getD []).map Prod.fst) := by
      rw [g2]; rfl
    have hcalls : (procBuckets (k :: ks) st emptyAcc).2.1.calls.map Prod.fst =
        (procBuckets (k :: ks) st emptyAcc).2.1.ids := by
      rw [g2, g3]
      have hcomp : (Prod.fst ∘ fun e : Nat × EventConfig => (e.1, e.2.listener)) =
          Prod.fst := funext fun e => rfl
      simp [List.map_flatMap, List.map_map, hcomp, emptyAcc]
    by_cases hempty : (procBuckets (k :: ks) st emptyAcc).2.1.ids.isEmpty = true
    · rw [if_pos hempty]
      exact ⟨hfirst, by simp, hids, hcalls⟩
    · rw [if_neg hempty]
      exact ⟨hfirst, by simp, hids, hcalls⟩

/-- **C6 counterexample.** The claim asserts every bucket present in the
registry is non-empty and that an emission exhausting the last entry
removes the bucket.  Concretely: on a fresh bus, `on('e', cb, 1)` then one
`emit('e')` exhausts the single entry, yet the registry still holds the
key `'e'` with an empty bucket. -/
theorem c6_empty_bucket_persists :
    ∃ st1, on3 freshBus (.str ['e']) ⟨0, false⟩ 1 = .ok (st1, 0) ∧
      mapGet (emit st1 (.str ['e'])).1.stringEvents ['e'] = some [] := by
  exact ⟨{ stringEvents := [(['e'], [(0, ⟨⟨0, false⟩, .fin 1⟩)])],
           events := [], idMap := [(0, .str ['e'])], nextId := 1 }, rfl, rfl⟩

/-- **C6 (amended).** Buckets are never removed when they become empty:
neither an emission that exhausts a bucket's last entry nor
`removeListener` removing a bucket's last entry deletes the bucket — both
operations leave the registered key lists (string and non-string) of the
registry completely unchanged, so an emptied bucket stays in the registry.
(`emit`'s final `ids.length === 0` check is what makes such empty buckets
unobservable through `emit`'s result.) -/
theorem c6_operations_preserve_buckets (st : BusState) (id : Nat) (x : Ident) :
    keyShape (removeListener st id).1 = keyShape st ∧
    keyShape (emit st x).1 = keyShape st := by
  constructor
  · unfold removeListener
    cases hid : mapGet st.idMap id with
    | none => rfl
    | some x' =>
      simp only []
      cases hg : getEvent st x' with
      | none => rfl
      | some b =>
        have hs : (getEvent { st with idMap := mapDelete st.idMap id } x').isSome := by
          rw [getEvent_withIdMap, hg]; rfl
        exact (keyShape_setEvent_of_isSome _ x' _ hs).trans rfl
  · rw [emit]
    by_cases hv : expectEmitOk x = true
    · rw [if_pos hv]
      cases hm : matchEvents st x with
      | error e => rfl
      | ok keys =>
        cases keys with
        | nil => rfl
        | cons k ks =>
          simp only []
          by_cases hthr :
              (procBuckets (k :: ks) st emptyAcc).2.2 = true
          · rw [if_pos hthr]
            exact procBuckets_keyShape (k :: ks) st emptyAcc
          · rw [if_neg hthr]
            by_cases hempty :
                (procBuckets (k :: ks) st emptyAcc).2.1.ids.isEmpty = true
            · rw [if_pos hempty]
              exact procBuckets_keyShape (k :: ks) st emptyAcc
            · rw [if_neg hempty]
              exact procBuckets_keyShape (k :: ks) st emptyAcc
    · rw [if_neg hv]

/-- **C7.** The claim says `clear()` empties every bucket for all
identifier kinds, so that emitting any identifier afterwards returns
`null`.  The code's `clear` only clears `stringEvents` and `idMap`, never
the non-string `events` map: after registering a listener under an opaque
(non-string) identifier and calling `clear()`, emitting that identifier
still invokes the listener and returns an `EmitResult` (with the
`identifier` field now `undefined`, since `idMap` *was* cleared). -/
theorem c7_clear_misses_nonstring_events :
    ∃ st1, on2 freshBus (.val (.other 7)) ⟨0, false⟩ = .ok (st1, 0) ∧
      mapGet (clear st1).events (.other 7) = some [(0, ⟨⟨0, false⟩, .inf⟩)] ∧
      (emit (clear st1) (.val (.other 7))).2.1.calls = [(0, ⟨0, false⟩)] ∧
      (emit (clear st1) (.val (.other 7))).2.2 = .okRes := by
  exact ⟨{ stringEvents := [], events := [(.other 7, [(0, ⟨⟨0, false⟩, .inf⟩)])],
           idMap := [(0, .val (.other 7))], nextId := 1 }, rfl, rfl, rfl, rfl⟩

/-- The bookkeeping the claim C8 describes for the listeners processed
before a throw: each entry's capacity is decremented, and an entry whose
capacity thereby dropped to `<= 0` is removed. -/
def decPrune (es : List (Nat × EventConfig)) : List (Nat × EventConfig) :=
  es.filterMap fun e =>
    if (e.2.capacity.dec).le0 then none
    else some (e.1, { listener := e.2.listener, capacity := e.2.capacity.dec })

theorem procEntries_throw_spec (s : List Char) (j : Nat) (cfgT : EventConfig)
    (hthrow : cfgT.listener.throws = true) (post : List (Nat × EventConfig)) :
    ∀ (pre done : List (Nat × EventConfig)) (st : BusState) (acc : EmitAcc),
      getEvent st (.str s) = some (done ++ (pre ++ (j, cfgT) :: post)) →
      ((done ++ (pre ++ (j, cfgT) :: post)).map Prod.fst).Nodup →
      (∀ e ∈ pre, e.2.listener.throws = false) →
      (procEntries (.str s) (pre ++ (j, cfgT) :: post) st acc).2.2 = true ∧
      (procEntries (.str s) (pre ++ (j, cfgT) :: post) st acc).2.1.ids =
        acc.ids ++ pre.map Prod.fst ++ [j] ∧
      (procEntries (.str s) (pre ++ (j, cfgT) :: post) st acc).2.1.calls =
        acc.calls ++ pre.map (fun e => (e.1, e.2.listener)) ++ [(j, cfgT.listener)] ∧
      getEvent (procEntries (.str s) (pre ++ (j, cfgT) :: post) st acc).1 (.str s) =
        some (done ++ (decPrune pre ++ (j, cfgT) :: post)) := by
  intro pre
  induction pre with
  | nil =>
    intro done st acc hb _ _
    simp only [List.nil_append, procEntries]
    rw [if_pos hthrow]
    exact ⟨rfl, by simp, by simp, by simpa [decPrune] using hb⟩
  | cons e pre ih =>
    intro done st acc hb hnd hpre
    obtain ⟨i, c⟩ := e
    rw [List.cons_append] at hb hnd
    have hi : ¬c.listener.throws = true := by
      rw [hpre (i, c) (by simp)]; simp
    have hiNotDone : i ∉ done.map Prod.fst := by
      rw [List.map_append, List.nodup_append] at hnd
      exact fun hmem => hnd.2.2 hmem (by simp)
    simp only [List.cons_append, procEntries]
    rw [if_neg hi]
    by_cases hl : (c.capacity.dec).le0 = true
    · rw [if_pos hl]
      have hupd : getEvent
          (updateBucket st (.str s) fun b => mapDelete b i) (.str s) =
          some (done ++ (pre ++ (j, cfgT) :: post)) := by
        rw [getEvent_updateBucket_self st (.str s) _ hb,
          mapDelete_append_not_mem_left done (pre ++ (j, cfgT) :: post) c hiNotDone]
      have hnd' : ((done ++ (pre ++ (j, cfgT) :: post)).map Prod.fst).Nodup := by
        refine List.Nodup.sublist (List.Sublist.map _ ?_) hnd
        exact (List.sublist_cons_self (i, c) _).append_left done
      obtain ⟨g1, g2, g3, g4⟩ :=
        ih done
          { updateBucket st (Ident.str s) (fun b => mapDelete b i) with
              idMap := mapDelete
                (updateBucket st (Ident.str s) (fun b => mapDelete b i)).idMap i }
          { ids := acc.ids ++ [i],
            recs := acc.recs ++
              [(i, { identRec := mapGet st.idMap i, rest := c.capacity.dec })],
            calls := acc.calls ++ [(i, c.listener)] }
          (by rw [getEvent_withIdMap]; exact hupd) hnd'
          (fun e he => hpre e (by simp [he]))
      exact ⟨g1, g2.trans (by simp), g3.trans (by simp),
        g4.trans (by simp [decPrune, hl])⟩
    · rw [if_neg hl]
      have hupd : getEvent
          (updateBucket st (.str s)
            fun b => mapSet b i
              ({ listener := c.listener, capacity := c.capacity.dec } : EventConfig)) (.str s) =
          some ((done ++ [(i, ({ listener := c.listener, capacity := c.capacity.dec } : EventConfig))])
            ++ (pre ++ (j, cfgT) :: post)) := by
        rw [getEvent_updateBucket_self st (.str s) _ hb,
          mapSet_append_not_mem_left done (pre ++ (j, cfgT) :: post) c
            ({ listener := c.listener, capacity := c.capacity.dec } : EventConfig) hiNotDone]
        simp
      have hnd' : (((done ++ [(i, ({ listener := c.listener, capacity := c.capacity.dec } : EventConfig))])
          ++ (pre ++ (j, cfgT) :: post)).map Prod.fst).Nodup := by
        have hsame :
            ((done ++ [(i, ({ listener := c.listener, capacity := c.capacity.dec } : EventConfig))])
              ++ (pre ++ (j, cfgT) :: post)).map Prod.fst =
            (done ++ ((i, c) :: pre ++ (j, cfgT) :: post)).map Prod.fst := by
          simp
        rw [hsame]
        exact hnd
      obtain ⟨g1, g2, g3, g4⟩ :=
        ih (done ++ [(i, ({ listener := c.listener, capacity := c.capacity.dec } : EventConfig))])
          (updateBucket st (Ident.str s)
            (fun b => mapSet b i ({ listener := c.listener, capacity := c.capacity.dec } : EventConfig)))
          { ids := acc.ids ++ [i],
            recs := acc.recs ++
              [(i, { identRec := mapGet st.idMap i, rest := c.capacity.dec })],
            calls := acc.calls ++ [(i, c.listener)] }
          hupd hnd' (fun e he => hpre e (by simp [he]))
      exact ⟨g1, g2.trans (by simp), g3.trans (by simp),
        g4.trans (by simp [decPrune, hl])⟩

/-- **C8.** If a listener throws during `emit`, the exception propagates
(emit ends `thrown`), the listeners after it in the bucket are not
invoked (the invocation list is exactly the earlier listeners followed by
the throwing one), and the bookkeeping already committed for the earlier
listeners — capacity decrements and removal of exhausted entries —
remains in effect in the final state; the throwing entry itself and the
later entries are untouched. -/
theorem c8_throw_fail_fast (s : List Char) (pre post : List (Nat × EventConfig))
    (j : Nat) (cfgT : EventConfig) (st : BusState)
    (hvalid : expectEmitOk (.str s) = true)
    (hbkt : st.stringEvents = [(s, pre ++ (j, cfgT) :: post)])
    (hnd : ((pre ++ (j, cfgT) :: post).map Prod.fst).Nodup)
    (hpre : ∀ e ∈ pre, e.2.listener.throws = false)
    (hthrow : cfgT.listener.throws = true) :
    (emit st (.str s)).2.2 = .thrown ∧
    (emit st (.str s)).2.1.calls =
      pre.map (fun e => (e.1, e.2.listener)) ++ [(j, cfgT.listener)] ∧
    mapGet (emit st (.str s)).1.stringEvents s =
      some (decPrune pre ++ (j, cfgT) :: post) := by
  have hget : getEvent st (.str s) = some (pre ++ (j, cfgT) :: post) := by
    simp [getEvent, hbkt, mapGet]
  have hm : matchEvents st (.str s) = .ok [.str s] := by
    rw [matchEvents, hbkt]
    simp [matchWildKeys, mapGet]
  obtain ⟨g1, g2, g3, g4⟩ :=
    procEntries_throw_spec s j cfgT hthrow post pre [] st emptyAcc
      (by simpa using hget) (by simpa using hnd) hpre
  rw [emit, if_pos hvalid, hm]
  simp only [procBuckets]
  rw [hget]
  simp only [Option.getD_some]
  rw [if_pos g1, if_pos g1]
  refine ⟨rfl, ?_, ?_⟩
  · rw [g3]; simp [emptyAcc]
  · have h4 := g4
    rw [List.nil_append] at h4
    exact h4

/-- **C9 counterexample.** The claim says re-registering the same callback
under the same identifier updates the existing entry's capacity and the
bucket stays at one entry.  The code's `register` never looks for an
existing entry: after `on('e', cb, 3); on('e', cb, 5)` the bucket holds
two independent entries, and the first entry's capacity is still 3. -/
theorem c9_second_registration_appends :
    ∃ st1 st2, on3 freshBus (.str ['e']) ⟨0, false⟩ 3 = .ok (st1, 0) ∧
      on3 st1 (.str ['e']) ⟨0, false⟩ 5 = .ok (st2, 1) ∧
      mapGet st2.stringEvents ['e'] =
        some [(0, ⟨⟨0, false⟩, .fin 3⟩), (1, ⟨⟨0, false⟩, .fin 5⟩)] := by
  exact ⟨{ stringEvents := [(['e'], [(0, ⟨⟨0, false⟩, .fin 3⟩)])],
           events := [], idMap := [(0, .str ['e'])], nextId := 1 },
         { stringEvents := [(['e'], [(0, ⟨⟨0, false⟩, .fin 3⟩), (1, ⟨⟨0, false⟩, .fin 5⟩)])],
           events := [], idMap := [(0, .str ['e']), (1, .str ['e'])], nextId := 2 },
         rfl, rfl, rfl⟩

/-- **C9 (amended).** Registering the same callback under the same
identifier a second time does *not* update the existing entry: it appends
a second, independent entry with a fresh id; the bucket then holds both
entries, each keeping its own capacity (the freshness hypothesis — every
id in the bucket is below the id counter — holds in every reachable state
because the counter only grows). -/
theorem c9_reregistration_appends (st : BusState) (x : Ident) (f : Fn)
    (c1 c2 : Int)
    (hname : expectEventNameOk x = true)
    (hc1 : isSafeIntegerPos c1 = true) (hc2 : isSafeIntegerPos c2 = true)
    (hfresh : ∀ e ∈ (getEvent st x).getD [], e.1 < st.nextId) :
    ∃ st1 st2 : BusState,
      on3 st x f c1 = .ok (st1, st.nextId) ∧
      on3 st1 x f c2 = .ok (st2, st.nextId + 1) ∧
      getEvent st2 x =
        some ((getEvent st x).getD [] ++
          [(st.nextId, { listener := f, capacity := .fin c1 }),
           (st.nextId + 1, { listener := f, capacity := .fin c2 })]) := by
  obtain ⟨r1, r2, r3, r4⟩ := register_spec st x f (.fin c1) hfresh
  obtain ⟨q1, q2, q3, _⟩ :=
    register_spec (register st x f (.fin c1)).1 x f (.fin c2) r4
  refine ⟨(register st x f (.fin c1)).1,
    (register (register st x f (.fin c1)).1 x f (.fin c2)).1, ?_, ?_, ?_⟩
  · rw [on3, if_pos hname, if_pos hc1]
    exact congrArg Except.ok (by rw [← r1])
  · rw [on3, if_pos hname, if_pos hc2]
    exact congrArg Except.ok (by rw [← r2, ← q1])
  · rw [q3, r3, r2]
    simp

/-- Witness for C9's amended statement at a concrete input: a fresh bus,
identifier `'e'`, capacities 3 then 5. -/
theorem c9_reregistration_appends_witness :
    ∃ st1 st2 : BusState,
      on3 freshBus (.str ['e']) ⟨0, false⟩ 3 = .ok (st1, 0) ∧
      on3 st1 (.str ['e']) ⟨0, false⟩ 5 = .ok (st2, 1) ∧
      getEvent st2 (.str ['e']) =
        some [(0, { listener := ⟨0, false⟩, capacity := .fin 3 }),
              (1, { listener := ⟨0, false⟩, capacity := .fin 5 })] :=
  c9_reregistration_appends freshBus (.str ['e']) ⟨0, false⟩ 3 5
    (by decide) (by decide) (by decide) (by intro e he; simp [freshBus, getEvent, mapGet] at he)

/-- **C10.** The single-argument overloads: `on(f)` registers the function
`f` as both identifier and listener with unbounded capacity, `once(f)`
does the same with capacity 1, and a subsequent `emit(f)` (given that no
listener in `f`'s bucket throws) invokes `f` and returns a non-null
`EmitResult` whose `ids` contain the new entry's id. -/
theorem c10_single_function_arg (st : BusState) (f : Fn)
    (hf : f.throws = false)
    (hb : ∀ e ∈ (getEvent st (.val (.fn f))).getD [], e.2.listener.throws = false)
    (hfresh : ∀ e ∈ (getEvent st (.val (.fn f))).getD [], e.1 < st.nextId) :
    (on1 st f).2 = st.nextId ∧
    getEvent (on1 st f).1 (.val (.fn f)) =
      some ((getEvent st (.val (.fn f))).getD [] ++
        [(st.nextId, { listener := f, capacity := .inf })]) ∧
    (once1 st f).2 = st.nextId ∧
    getEvent (once1 st f).1 (.val (.fn f)) =
      some ((getEvent st (.val (.fn f))).getD [] ++
        [(st.nextId, { listener := f, capacity := .fin 1 })]) ∧
    (emit (on1 st f).1 (.val (.fn f))).2.2 = .okRes ∧
    st.nextId ∈ (emit (on1 st f).1 (.val (.fn f))).2.1.ids ∧
    (st.nextId, f) ∈ (emit (on1 st f).1 (.val (.fn f))).2.1.calls := by
  obtain ⟨r1, r2, r3, _⟩ := register_spec st (.val (.fn f)) f .inf hfresh
  obtain ⟨q1, _, q3, _⟩ := register_spec st (.val (.fn f)) f (.fin 1) hfresh
  have r3' : getEvent (on1 st f).1 (.val (.fn f)) =
      some ((getEvent st (.val (.fn f))).getD [] ++
        [(st.nextId, { listener := f, capacity := .inf })]) := r3
  have hm : matchEvents (on1 st f).1 (.val (.fn f)) = .ok [.val (.fn f)] := by
    rw [matchEvents]
    have hmg : mapGet (on1 st f).1.events (.fn f) =
        some ((getEvent st (.val (.fn f))).getD [] ++
          [(st.nextId, { listener := f, capacity := .inf })]) := r3'
    rw [hmg]
  have hth : ∀ k ∈ [Ident.val (.fn f)],
      ∀ e ∈ (getEvent (on1 st f).1 k).getD [], e.2.listener.throws = false := by
    intro k hk e he
    rw [List.mem_singleton] at hk
    subst hk
    rw [r3'] at he
    simp only [Option.getD_some, List.mem_append, List.mem_singleton] at he
    rcases he with he | rfl
    · exact hb e he
    · exact hf
  obtain ⟨g1, g2, g3⟩ :=
    procBuckets_no_throw [.val (.fn f)] (on1 st f).1 emptyAcc
      (by simp) hth
  have hids : (procBuckets [.val (.fn f)] (on1 st f).1 emptyAcc).2.1.ids =
      ((getEvent st (.val (.fn f))).getD []).map Prod.fst ++ [st.nextId] := by
    rw [g2]
    simp [emptyAcc, r3']
  have hcalls : (procBuckets [.val (.fn f)] (on1 st f).1 emptyAcc).2.1.calls =
      ((getEvent st (.val (.fn f))).getD []).map (fun e => (e.1, e.2.listener)) ++
        [(st.nextId, f)] := by
    rw [g3]
    simp [emptyAcc, r3']
  have hne : ¬(procBuckets [.val (.fn f)] (on1 st f).1 emptyAcc).2.1.ids.isEmpty = true := by
    rw [hids]
    simp
  rw [emit]
  rw [if_pos (by rfl : expectEmitOk (.val (.fn f)) = true), hm]
  simp only []
  rw [if_neg (by rw [g1]; simp), if_neg hne]
  refine ⟨r1, r3, q1, q3, rfl, ?_, ?_⟩
  · rw [hids]; simp
  · rw [hcalls]; simp

/-- Witness for C10 at a concrete input: a fresh bus and the function
tagged 5. -/
theorem c10_single_function_arg_witness :
    (emit (on1 freshBus ⟨5, false⟩).1 (.val (.fn ⟨5, false⟩))).2.2 = .okRes ∧
    (0, (⟨5, false⟩ : Fn)) ∈
      (emit (on1 freshBus ⟨5, false⟩).1 (.val (.fn ⟨5, false⟩))).2.1.calls := by
  have h := c10_single_function_arg freshBus ⟨5, false⟩ rfl
    (by intro e he; simp [freshBus, getEvent, mapGet] at he)
    (by intro e he; simp [freshBus, getEvent, mapGet] at he)
  exact ⟨h.2.2.2.2.1, h.2.2.2.2.2.2⟩

/-- Witness for C5 at a concrete input: a bus with wildcard bucket
`'a.*'` (listener id 0) registered before exact bucket `'a.x'`
(listener id 1); emitting `'a.x'` resolves the exact bucket first. -/
theorem c5_resolution_order_witness :
    (emit
      { stringEvents :=
          [("a.*".toList, [(0, { listener := ⟨1, false⟩, capacity := .inf })]),
           ("a.x".toList, [(1, { listener := ⟨2, false⟩, capacity := .inf })])],
        events := [], idMap := [(0, .str "a.*".toList), (1, .str "a.x".toList)],
        nextId := 2 }
      (.str "a.x".toList)).2.1.ids =
      [Ident.str "a.x".toList, Ident.str "a.*".toList].flatMap
        (fun k => ((getEvent
          { stringEvents :=
              [("a.*".toList, [(0, { listener := ⟨1, false⟩, capacity := .inf })]),
               ("a.x".toList, [(1, { listener := ⟨2, false⟩, capacity := .inf })])],
            events := [], idMap := [(0, .str "a.*".toList), (1, .str "a.x".toList)],
            nextId := 2 } k).getD []).map Prod.fst) :=
  (c5_resolution_order
    { stringEvents :=
        [("a.*".toList, [(0, { listener := ⟨1, false⟩, capacity := .inf })]),
         ("a.x".toList, [(1, { listener := ⟨2, false⟩, capacity := .inf })])],
      events := [], idMap := [(0, .str "a.*".toList), (1, .str "a.x".toList)],
      nextId := 2 }
    "a.x".toList
    [Ident.str "a.x".toList, Ident.str "a.*".toList]
    (by decide) (by decide) rfl (by decide)).2.2.1

/-- Witness for C8 at a concrete input: bucket `'e'` holds listener 0
(capacity 1), the throwing listener 1, and listener 2; emitting `'e'`
throws, calls only listeners 0 and 1, and prunes entry 0. -/
theorem c8_throw_fail_fast_witness :
    (emit
      { stringEvents :=
          [(['e'], [(0, { listener := ⟨0, false⟩, capacity := .fin 1 }),
                    (1, { listener := ⟨1, true⟩, capacity := .inf }),
                    (2, { listener := ⟨2, false⟩, capacity := .fin 5 })])],
        events := [], idMap := [(0, .str ['e']), (1, .str ['e']), (2, .str ['e'])],
        nextId := 3 }
      (.str ['e'])).2.2 = .thrown ∧
    (emit
      { stringEvents :=
          [(['e'], [(0, { listener := ⟨0, false⟩, capacity := .fin 1 }),
                    (1, { listener := ⟨1, true⟩, capacity := .inf }),
                    (2, { listener := ⟨2, false⟩, capacity := .fin 5 })])],
        events := [], idMap := [(0, .str ['e']), (1, .str ['e']), (2, .str ['e'])],
        nextId := 3 }
      (.str ['e'])).2.1.calls =
      [(0, (⟨0, false⟩ : Fn)), (1, (⟨1, true⟩ : Fn))] := by
  have h := c8_throw_fail_fast ['e']
    [(0, { listener := ⟨0, false⟩, capacity := .fin 1 })]
    [(2, { listener := ⟨2, false⟩, capacity := .fin 5 })]
    1 { listener := ⟨1, true⟩, capacity := .inf }
    { stringEvents :=
        [(['e'], [(0, { listener := ⟨0, false⟩, capacity := .fin 1 }),
                  (1, { listener := ⟨1, true⟩, capacity := .inf }),
                  (2, { listener := ⟨2, false⟩, capacity := .fin 5 })])],
      events := [], idMap := [(0, .str ['e']), (1, .str ['e']), (2, .str ['e'])],
      nextId := 3 }
    (by decide) rfl (by decide) (by decide) rfl
  exact ⟨h.1, h.2.1⟩

end AnyEvent
